import Mathlib

/-!
Verification development for `tools/find_js_duplicates.py`, a heuristic
scanner that finds duplicated JS/TS functions.  The Python source is
shallowly embedded here: strings are `List Char`, loops become fuel-based
recursions (fuel is always instantiated large enough for the loop bounds),
and Python's `difflib.SequenceMatcher(None, a, b).ratio()` — an external
library routine — is abstracted as a rational-valued parameter `score`
whose relevant facts (behaviour on empty strings, symmetry, range) are
taken as hypotheses where needed.
-/

set_option maxRecDepth 100000

namespace FindDup

/-- Strings of the embedded program are lists of characters. -/
abbrev Str := List Char

/-- Python's `\s` character class (ASCII part, which is all the scanner's
regexes rely on for the claims at hand). -/
def isSpace (c : Char) : Bool :=
  c = ' ' || c = '\t' || c = '\n' || c = '\r' || c = '\x0b' || c = '\x0c'

/-! ## Normalizer: `strip_comments` and `normalize` -/

/-- Scan for the first occurrence of the two-character closer `*/` and
return the remainder of the string after it (the non-greedy `.*?\*/` of the
block-comment regex), or `none` when no closer exists. -/
def afterClose : Str → Option Str
  | [] => none
  | '*' :: '/' :: r => some r
  | _ :: r => afterClose r

/-- One fuel-indexed pass of `re.sub(r"/\*.*?\*/", '', code, flags=re.S)`:
left-to-right, each `/*` that has a later `*/` is removed together with the
(minimal) text up to that closer, and scanning resumes after the removed
match; a `/*` with no later closer is kept literally.  Fuel
`s.length` always suffices since every step consumes at least one
character. -/
def removeBlockF : Nat → Str → Str
  | 0, s => s
  | _ + 1, [] => []
  | f + 1, c :: r =>
    if c = '/' ∧ r.head? = some '*' then
      match afterClose r.tail with
      | some r3 => removeBlockF f r3
      | none => c :: removeBlockF f r
    else c :: removeBlockF f r

/-- `re.sub(r"//.*?$", '', code, flags=re.M)`: from each `//` on, drop the
rest of the line (the newline itself is kept).  The flag records whether we
are currently inside a line comment. -/
def removeLineAux : Bool → Str → Str
  | _, [] => []
  | true, c :: r => if c = '\n' then c :: removeLineAux false r else removeLineAux true r
  | false, [c] => [c]
  | false, c :: d :: r =>
    if c = '/' ∧ d = '/' then removeLineAux true r
    else c :: removeLineAux false (d :: r)

/-- `strip_comments`: block comments removed first, then line comments. -/
def strip_comments (s : Str) : Str :=
  removeLineAux false (removeBlockF s.length s)

/-- `re.sub(r"\s+", ' ', s)`: each maximal whitespace run becomes a single
space.  The flag records whether the previous character was whitespace
(i.e. whether a run is already in progress). -/
def collapseAux : Bool → Str → Str
  | _, [] => []
  | b, c :: r =>
    if isSpace c then
      if b then collapseAux true r else ' ' :: collapseAux true r
    else c :: collapseAux false r

/-- Whitespace collapsing, starting outside any run. -/
def collapse (s : Str) : Str := collapseAux false s

/-- Remove trailing whitespace (the right half of Python's `str.strip`). -/
def dropTrailing (s : Str) : Str :=
  s.foldr (fun c acc => if acc.isEmpty && isSpace c then [] else c :: acc) []

/-- Python's `s.strip()`: leading and trailing whitespace removed. -/
def pyStrip (s : Str) : Str := dropTrailing (s.dropWhile isSpace)

/-- `normalize`: strip comments, collapse whitespace, strip the ends. -/
def normalize (s : Str) : Str := pyStrip (collapse (strip_comments s))

/-- Normal-form invariant: every whitespace character is a plain space. -/
def onlyPlain (s : Str) : Bool := s.all (fun c => !(isSpace c) || c = ' ')

/-- Normal-form invariant: no two adjacent spaces. -/
def noDD : Str → Bool
  | [] => true
  | [_] => true
  | a :: b :: r => !(a = ' ' && b = ' ') && noDD (b :: r)

/-- Normal-form invariant: the first character is not whitespace. -/
def headNotSpace : Str → Bool
  | [] => true
  | c :: _ => !(isSpace c)

/-- Normal-form invariant: the last character is not whitespace. -/
def lastNotSpace : Str → Bool
  | [] => true
  | [c] => !(isSpace c)
  | _ :: b :: r => lastNotSpace (b :: r)

/-! ## Function extractor -/

/-- Consume a literal prefix, returning the rest on success. -/
def expectLit : Str → Str → Option Str
  | [], s => some s
  | _ :: _, [] => none
  | c :: p, d :: s => if c = d then expectLit p s else none

/-- The identifier class `[A-Za-z0-9_$]` of the boundary patterns. -/
def isNameChar (c : Char) : Bool := c.isAlphanum || c = '_' || c = '$'

/-- Python's `\w` class (ASCII), used for the `\b` boundary after
`function` in pattern 2: note `$` is not a word character. -/
def isWordChar (c : Char) : Bool := c.isAlphanum || c = '_'

/-- Greedily take one-or-more identifier characters (`[A-Za-z0-9_$]+`),
returning the captured name and the rest. -/
def takeName : Str → Option (Str × Str)
  | [] => none
  | c :: r =>
    if isNameChar c then some (c :: r.takeWhile isNameChar, r.dropWhile isNameChar)
    else none

/-- The common regex tail `\s*\([^\)]*\)\s*\{` of patterns 1 and 4:
optional space, a parenthesised parameter list (greedy `[^)]*` stops at the
first `)`), optional space, an opening brace. -/
def parenBraceTail (s : Str) : Bool :=
  match s.dropWhile isSpace with
  | '(' :: r =>
    match r.dropWhile (fun c => !(c = ')')) with
    | ')' :: r2 =>
      match r2.dropWhile isSpace with
      | '{' :: _ => true
      | _ => false
    | _ => false
  | _ => false

/-- Pattern 1: `^\s*function\s+([A-Za-z0-9_$]+)\s*\([^\)]*\)\s*\{`. -/
def matchP1 (line : Str) : Option Str :=
  match expectLit "function".data (line.dropWhile isSpace) with
  | none => none
  | some s2 =>
    match s2 with
    | [] => none
    | c :: r =>
      if isSpace c then
        match takeName (r.dropWhile isSpace) with
        | none => none
        | some nr => if parenBraceTail nr.2 then some nr.1 else none
      else none

/-- The alternation `(?:var|let|const)` (first characters are pairwise
distinct, so committed choice is faithful). -/
def matchVLC (s : Str) : Option Str :=
  match expectLit "var".data s with
  | some r => some r
  | none =>
    match expectLit "let".data s with
    | some r => some r
    | none => expectLit "const".data s

/-- After `var|let|const`, require `\s+` then capture the identifier;
returns the name and the rest after `\s*=`. -/
def vlcNameEq (line : Str) : Option (Str × Str) :=
  match matchVLC (line.dropWhile isSpace) with
  | none => none
  | some s2 =>
    match s2 with
    | [] => none
    | c :: r =>
      if isSpace c then
        match takeName (r.dropWhile isSpace) with
        | none => none
        | some nr =>
          match nr.2.dropWhile isSpace with
          | '=' :: r2 => some (nr.1, r2)
          | _ => none
      else none

/-- Does the string start at a `\b` boundary (end, or a non-word char)? -/
def wordBoundary : Str → Bool
  | [] => true
  | c :: _ => !(isWordChar c)

/-- Pattern 2: `^\s*(?:var|let|const)\s+([A-Za-z0-9_$]+)\s*=\s*function\b`. -/
def matchP2 (line : Str) : Option Str :=
  match vlcNameEq line with
  | none => none
  | some nr =>
    match expectLit "function".data (nr.2.dropWhile isSpace) with
    | none => none
    | some s6 => if wordBoundary s6 then some nr.1 else none

/-- Pattern 3: `^\s*(?:var|let|const)\s+([A-Za-z0-9_$]+)\s*=\s*[^=\n]*=>\s*\{`.
The class `[^=\n]*` cannot cross an `=`, so the arrow must be at the first
`=` after the assignment; no backtracking is possible. -/
def matchP3 (line : Str) : Option Str :=
  match vlcNameEq line with
  | none => none
  | some nr =>
    match ((nr.2.dropWhile isSpace).dropWhile (fun c => !(c = '=') && !(c = '\n'))) with
    | '=' :: '>' :: r4 =>
      match r4.dropWhile isSpace with
      | '{' :: _ => some nr.1
      | _ => none
    | _ => none

/-- Pattern 4 (method shorthand): `^\s*([A-Za-z0-9_$]+)\s*\([^\)]*\)\s*\{`. -/
def matchP4 (line : Str) : Option Str :=
  match takeName (line.dropWhile isSpace) with
  | none => none
  | some nr => if parenBraceTail nr.2 then some nr.1 else none

/-- `FUNC_PATTERNS` tried in order; the first pattern that matches wins. -/
def firstMatch (line : Str) : Option Str :=
  match matchP1 line with
  | some n => some n
  | none =>
    match matchP2 line with
    | some n => some n
    | none =>
      match matchP3 line with
      | some n => some n
      | none => matchP4 line

/-- `KEYWORD_NAMES`: the denylist of control-keyword-like names. -/
def KEYWORD_NAMES : List Str :=
  ["if".data, "for".data, "while".data, "switch".data, "catch".data, "else".data,
   "constructor".data, "settimeout".data, "setinterval".data, "timeout".data]

/-- `name.strip().lower() in KEYWORD_NAMES` — the captured class
`[A-Za-z0-9_$]` contains no whitespace, so `.strip()` is the identity and
only ASCII lowercasing remains. -/
def keywordHit (n : Str) : Bool :=
  KEYWORD_NAMES.contains (n.map Char.toLower)

/-- `code.splitlines()` restricted to `\n` terminators: each newline ends a
line, a final fragment without a newline is still a line, and the empty
text has no lines. -/
def splitLinesAux : Str → Str → List Str
  | acc, [] => if acc.isEmpty then [] else [acc.reverse]
  | acc, c :: r =>
    if c = '\n' then acc.reverse :: splitLinesAux [] r
    else splitLinesAux (c :: acc) r

/-- Split a text into lines. -/
def splitLines (s : Str) : List Str := splitLinesAux [] s

/-- `'\n'.join(lines)`. -/
def joinLines : List Str → Str
  | [] => []
  | [l] => l
  | l :: ls => l ++ '\n' :: joinLines ls

/-- `snippet = func_code[:120].replace('\n', '\\n')` — the escaping step:
each newline becomes the two characters `\` and `n`. -/
def escapeNl : Str → Str
  | [] => []
  | c :: r => if c = '\n' then '\\' :: 'n' :: escapeNl r else c :: escapeNl r

/-- One detected function occurrence (the dict built by
`extract_functions`).  `name` is an `Option` because the Python code guards
`m.group(1) if m.groups() else None`. -/
structure FuncRec where
  path : Str
  start_line : Nat
  end_line : Nat
  name : Option Str
  code : Str
  norm : Str
  snippet : Str
deriving DecidableEq, Repr, Inhabited

/-- The brace-balance scan of `extract_functions`: starting at line `j`
with running count `cnt` (an integer — it may go negative) and flag
`found` (has any `{` been seen), advance line by line; after consuming a
line, stop when a brace has been seen and the count is `≤ 0`.  Returns the
exclusive end index (1-based inclusive end line).  Fuel
`lines.length + 1` always suffices. -/
def scanF (lines : List Str) : Nat → Nat → Int → Bool → Nat
  | 0, j, _, _ => j
  | f + 1, j, cnt, found =>
    if j < lines.length then
      let l := lines.getD j []
      let cnt2 := cnt + (l.count '{' : Int) - (l.count '}' : Int)
      let found2 := found || l.contains '{'
      if found2 && decide (cnt2 ≤ 0) then j + 1
      else scanF lines f (j + 1) cnt2 found2
    else j

/-- The extent-end scan started from line `i` with zero count. -/
def scanEnd (lines : List Str) (i : Nat) : Nat :=
  scanF lines (lines.length + 1) i 0 false

/-- The line scan of `extract_functions`.  Note the denylist branch: the
Python code increments `i` inside the pattern loop and then falls through
to the `if not matched: i += 1` — so a denylisted line advances the scan
by TWO lines. -/
def extractLoopF (lines : List Str) (path : Str) : Nat → Nat → List FuncRec
  | 0, _ => []
  | f + 1, i =>
    if i < lines.length then
      match firstMatch (lines.getD i []) with
      | none => extractLoopF lines path f (i + 1)
      | some n =>
        if keywordHit n then extractLoopF lines path f (i + 2)
        else
          let e := scanEnd lines i
          let fcode := joinLines ((lines.drop i).take (e - i))
          { path := path, start_line := i + 1, end_line := e, name := some n,
            code := fcode, norm := normalize fcode,
            snippet := escapeNl (fcode.take 120) } :: extractLoopF lines path f e
    else []

/-- `extract_functions(code, path)` — the `path` is the repository-relative
path (`os.path.relpath(path, ROOT)` is modelled as the given string). -/
def extract_functions (text : Str) (path : Str) : List FuncRec :=
  let lines := splitLines text
  extractLoopF lines path (lines.length + 1) 0

/-- The ordering contract of the extracted record list: relative to a lower
bound `lo` (the line index already consumed), every record starts after
`lo`, has `start_line ≤ end_line`, and the records that follow start
strictly after its `end_line`. -/
def RecordsChained : Nat → List FuncRec → Prop
  | _, [] => True
  | lo, r :: rs => lo < r.start_line ∧ r.start_line ≤ r.end_line ∧ RecordsChained r.end_line rs

/-- A line that is whitespace-only or whose first non-whitespace character
is `/` — the shape of every line of a file made only of line comments,
whitespace and block-comment delimiter lines. -/
def commentLine (l : Str) : Bool :=
  match l.dropWhile isSpace with
  | [] => true
  | c :: _ => c = '/'

/-! ## Grouping engine -/

/-- Python truthiness of the `name` field: `None` and the empty string are
falsy (`if f['name']:`). -/
def truthyName : Option Str → Bool
  | none => false
  | some s => !s.isEmpty

/-- The distinct `norm` keys in first-occurrence order — the iteration
order of the `defaultdict` built by `group_exact`. -/
def normKeys (funcs : List FuncRec) : List Str :=
  funcs.foldl (fun acc f => if f.norm ∈ acc then acc else acc ++ [f.norm]) []

/-- `group_exact`: partition by `norm`; keep partitions with at least two
members and a truthy (non-empty) key. -/
def group_exact (funcs : List FuncRec) : List (List FuncRec) :=
  (normKeys funcs).filterMap (fun k =>
    if 1 < (funcs.filter (fun f => decide (f.norm = k))).length ∧ k ≠ [] then
      some (funcs.filter (fun f => decide (f.norm = k)))
    else none)

/-- The distinct truthy names in first-occurrence order (iteration order of
`group_identical_named`'s `defaultdict`; records with falsy names are
never inserted). -/
def nameKeysOf (funcs : List FuncRec) : List Str :=
  funcs.foldl (fun acc f =>
    match f.name with
    | some n => if truthyName (some n) then (if n ∈ acc then acc else acc ++ [n]) else acc
    | none => acc) []

/-- `group_identical_named`: partition truthy-named records by name; keep
partitions with at least two members and at least two distinct bodies
(`len(set(norms)) > 1` is the length of the deduplicated norm list). -/
def group_identical_named (funcs : List FuncRec) : List (List FuncRec) :=
  let named := funcs.filter (fun f => truthyName f.name)
  (nameKeysOf named).filterMap (fun k =>
    let items := named.filter (fun f => decide (f.name = some k))
    if 1 < items.length ∧ 1 < (normKeys items).length then some items else none)

/-- A member of a fuzzy cluster: the record plus the `'similarity'` key
added by `{**other, 'similarity': score}` (the representative has none). -/
abbrev FuzzyMember := FuncRec × Option ℚ

/-- The absorption test of `group_fuzzy`'s inner loop: both norms truthy
(non-empty), and the similarity score in `[threshold, 1.0)`. -/
def fuzzyCond (score : Str → Str → ℚ) (th : ℚ) (rep other : FuncRec) : Bool :=
  !rep.norm.isEmpty && !other.norm.isEmpty &&
    decide (th ≤ score rep.norm other.norm) && decide (score rep.norm other.norm < 1)

/-- The cluster formed when `rep` is popped as representative with `rest`
as the remaining pool: `rep` followed by every absorbed record annotated
with its score (in pool order). -/
def fuzzyCluster (score : Str → Str → ℚ) (th : ℚ) (rep : FuncRec) (rest : List FuncRec) :
    List FuzzyMember :=
  (rep, none) :: (rest.filter (fuzzyCond score th rep)).map
    (fun o => (o, some (score rep.norm o.norm)))

/-- Fuel-indexed `group_fuzzy` loop: pop the first pool element as
representative, absorb everything scoring in `[th, 1.0)`, remove the
absorbed records from the pool, keep clusters of size `> 1`.  Fuel
`pool.length` always suffices since each round pops the representative. -/
def groupFuzzyF (score : Str → Str → ℚ) (th : ℚ) : Nat → List FuncRec → List (List FuzzyMember)
  | _, [] => []
  | 0, _ :: _ => []
  | f + 1, rep :: rest =>
    let cluster := fuzzyCluster score th rep rest
    let remaining := rest.filter (fun o => !(fuzzyCond score th rep o))
    if 1 < cluster.length then cluster :: groupFuzzyF score th f remaining
    else groupFuzzyF score th f remaining

/-- `group_fuzzy(funcs, threshold)` (the `main` call passes 0.82). -/
def group_fuzzy (score : Str → Str → ℚ) (th : ℚ) (pool : List FuncRec) :
    List (List FuzzyMember) :=
  groupFuzzyF score th pool.length pool

/-! ## Canonical selector -/

/-- Python's `<=` on strings: lexicographic by code point. -/
def lexLe : Str → Str → Bool
  | [], _ => true
  | _ :: _, [] => false
  | a :: as, b :: bs =>
    if a.toNat < b.toNat then true
    else if b.toNat < a.toNat then false
    else lexLe as bs

/-- The sort key of `choose_canonical`: `(len(path), path)` compared as a
Python tuple. -/
def keyLE (a b : FuncRec) : Bool :=
  if a.path.length = b.path.length then lexLe a.path b.path
  else decide (a.path.length < b.path.length)

/-- Stable insertion into a key-sorted list (an earlier element stays
before later key-equal elements, matching Python's stable `sorted`). -/
def orderedInsert (a : FuncRec) : List FuncRec → List FuncRec
  | [] => [a]
  | b :: l => if keyLE a b then a :: b :: l else b :: orderedInsert a l

/-- `sorted(group, key=lambda x: (len(x['path']), x['path']))`. -/
def sortByKey (l : List FuncRec) : List FuncRec :=
  l.foldr orderedInsert []

/-- `choose_canonical`: the path of the first element of the sorted group.
(`os.path.relpath(os.path.join(ROOT, p), ROOT)` is the identity on the
repository-relative paths stored in the records.)  On the empty group —
which `main` never passes — we return the empty path. -/
def choose_canonical (group : List FuncRec) : Str :=
  match sortByKey group with
  | [] => []
  | c :: _ => c.path

/-- Sortedness of a record list under the `(len(path), path)` key. -/
def SortedK : List FuncRec → Prop
  | [] => True
  | [_] => True
  | a :: b :: l => keyLE a b = true ∧ SortedK (b :: l)

/-! ## `main`: report assembly -/

/-- A report entry (`make_entry`): the snippet is re-truncated to 120
characters (and a missing/empty snippet yields the empty string, which
`take 120` of the empty list also gives). -/
structure Entry where
  path : Str
  start_line : Nat
  end_line : Nat
  name : Option Str
  snippet : Str
deriving DecidableEq, Repr, Inhabited

/-- `make_entry`. -/
def make_entry (f : FuncRec) : Entry :=
  { path := f.path, start_line := f.start_line, end_line := f.end_line,
    name := f.name, snippet := f.snippet.take 120 }

/-- `set(g[0]['norm'] for g in exact_groups if g and g[0]['norm'])`:
the shared norms of the exact-body groups (set = membership list). -/
def exactNorms (funcs : List FuncRec) : List Str :=
  (group_exact funcs).filterMap (fun g =>
    match g with
    | [] => none
    | f0 :: _ => if f0.norm = [] then none else some f0.norm)

/-- `remaining = [f for f in funcs if f['norm'] not in exact_norms]`. -/
def remainingOf (funcs : List FuncRec) : List FuncRec :=
  funcs.filter (fun f => decide (f.norm ∉ exactNorms funcs))

/-- The fuzzy groups computed by `main`: threshold 0.82 over the records
not in any exact-body partition. -/
def mainFuzzyGroups (score : Str → Str → ℚ) (funcs : List FuncRec) :
    List (List FuzzyMember) :=
  group_fuzzy score (mkRat 82 100) (remainingOf funcs)

/-- Round half to even (Python's `round`), on rationals.  The fractional
part `q - ⌊q⌋` is compared with `1/2` in cross-multiplied integer form
(the denominator of a rational is positive): `q - ⌊q⌋ < 1/2` iff
`2*q.num < (2*⌊q⌋ + 1)*q.den`, and symmetrically for `>`. -/
def rhe (q : ℚ) : ℤ :=
  if 2 * q.num < (2 * ⌊q⌋ + 1) * (q.den : ℤ) then ⌊q⌋
  else if (2 * ⌊q⌋ + 1) * (q.den : ℤ) < 2 * q.num then ⌊q⌋ + 1
  else if ⌊q⌋ % 2 = 0 then ⌊q⌋ else ⌊q⌋ + 1

/-- `q * 1000`, written on the numerator so that it evaluates by kernel
reduction (`mkRat` renormalises). -/
def scaleQ (q : ℚ) : ℚ := mkRat (q.num * 1000) q.den

/-- `round(x, 3)` on rationals: round half to even at the third decimal.
`mkRat n 1000` is the reducible form of `(n : ℚ) / 1000`. -/
def round3 (q : ℚ) : ℚ := mkRat (rhe (scaleQ q)) 1000

/-- One element of the `fuzzy_duplicates` output array. -/
structure FuzzyGroupOut where
  representative : Entry
  fmatches : List (Entry × ℚ)
  suggested_canonical : Str
deriving DecidableEq, Repr, Inhabited

/-- The `fuzzy_duplicates` array assembled by `main`: the first cluster
member is the representative, each other member becomes an entry paired
with `round(o.get('similarity', 0.0), 3)`.  Clusters are non-empty by
construction; the empty case is dead code. -/
def fuzzy_duplicates_out (score : Str → Str → ℚ) (funcs : List FuncRec) :
    List FuzzyGroupOut :=
  (mainFuzzyGroups score funcs).map (fun g =>
    match g with
    | [] => { representative := make_entry ⟨[], 0, 0, none, [], [], []⟩,
              fmatches := [], suggested_canonical := [] }
    | rep :: others =>
      { representative := make_entry rep.1,
        fmatches := others.map (fun o => (make_entry o.1, round3 (o.2.getD 0))),
        suggested_canonical := choose_canonical (g.map (fun m => m.1)) })

/-! ## Concrete sample inputs used to instantiate the claims -/

/-- A denylisted control line directly followed by a real function. -/
def denyText : Str := "if (x) \x7b\nfunction f() \x7b\n\x7d".data

/-- The same function without the preceding control line. -/
def denyTextTail : Str := "function f() \x7b\n\x7d".data

/-- A file consisting of one block comment whose interior line looks like a
method-shorthand header. -/
def commentTrapText : Str := "/*\nfoo(a) \x7b \x7d\n*/".data

/-- A file of line comments, a one-line block comment and blank space. -/
def commentOnlyText : Str := "// only comments\n/* block */\n  \n".data

/-- A six-line function of 120 characters containing five newlines, so the
escaped snippet has 125 characters. -/
def longFnText : Str :=
  "f(a) \x7b\naaaaaaaaaaaaaaaaaaaaaaaaaaa\naaaaaaaaaaaaaaaaaaaaaaaaaaa\naaaaaaaaaaaaaaaaaaaaaaaaaaa\naaaaaaaaaaaaaaaaaaaaaaaaaaa\n\x7d".data

/-- A small ordinary function, used to instantiate universally quantified
theorems at a concrete input. -/
def smallFnText : Str := "function add(a) \x7b\n return a;\n\x7d".data

/-- A sample similarity backend: 0 when either side is empty, 0.9
otherwise.  It satisfies the empty-string facts of
`SequenceMatcher.ratio` (an empty side gives 0.0 unless both are empty,
which gives 1.0). -/
def scoreW : Str → Str → ℚ :=
  fun x y => if x.isEmpty || y.isEmpty then 0 else mkRat 9 10

/-- A sample similarity backend returning 0.9999, a value
`SequenceMatcher.ratio` attains e.g. on two 10000-character strings
differing in one character (ratio 19998/20000). -/
def scoreCE : Str → Str → ℚ := fun _ _ => mkRat 9999 10000

/-- Sample records with distinct non-empty norms. -/
def recA : FuncRec :=
  ⟨"a.js".data, 1, 1, some "f".data, "aaaa".data, "aaaa".data, "aaaa".data⟩

/-- Second sample record, near-duplicate of `recA` by norm. -/
def recB : FuncRec :=
  ⟨"b.js".data, 1, 1, some "g".data, "aaab".data, "aaab".data, "aaab".data⟩

/-- Two records sharing the non-empty norm `"x x"` (an exact-body pair). -/
def recDupA : FuncRec :=
  ⟨"c1.js".data, 1, 1, some "h".data, "x x".data, "x x".data, "x x".data⟩

/-- The second member of the exact-body pair. -/
def recDupB : FuncRec :=
  ⟨"c2.js".data, 1, 1, some "h".data, "x x".data, "x x".data, "x x".data⟩

/-- A four-record set with one exact-body pair and one fuzzy pair. -/
def sampleFuncs : List FuncRec := [recDupA, recDupB, recA, recB]

/-! ## Extractor lemmas -/

theorem scanF_ge (lines : List Str) :
    ∀ f j cnt found, j ≤ scanF lines f j cnt found := by
  intro f
  induction f with
  | zero => intro j cnt found; simp [scanF]
  | succ f ih =>
    intro j cnt found
    simp only [scanF]
    split
    · split
      · omega
      · exact le_trans (by omega) (ih (j + 1) _ _)
    · exact le_rfl

theorem scanEnd_gt (lines : List Str) (i : Nat) (h : i < lines.length) :
    i + 1 ≤ scanEnd lines i := by
  unfold scanEnd scanF
  simp only [h, if_true]
  split
  · exact le_rfl
  · exact scanF_ge lines _ (i + 1) _ _

theorem chained_mono {lo lo' : Nat} {l : List FuncRec} (h : lo' ≤ lo) :
    RecordsChained lo l → RecordsChained lo' l := by
  cases l with
  | nil => intro; trivial
  | cons r rs =>
    intro ⟨h1, h2, h3⟩
    exact ⟨lt_of_le_of_lt h h1, h2, h3⟩

theorem extractLoopF_chained (lines : List Str) (path : Str) :
    ∀ f i, RecordsChained i (extractLoopF lines path f i) := by
  intro f
  induction f with
  | zero => intro i; trivial
  | succ f ih =>
    intro i
    simp only [extractLoopF]
    split
    · rename_i hlt
      split
      · exact chained_mono (by omega) (ih (i + 1))
      · split
        · exact chained_mono (by omega) (ih (i + 2))
        · exact ⟨Nat.lt_succ_self i, scanEnd_gt lines i hlt, ih (scanEnd lines i)⟩
    · trivial

theorem takeName_ne_nil {s : Str} {nr : Str × Str} (h : takeName s = some nr) :
    nr.1 ≠ [] := by
  cases s with
  | nil => simp [takeName] at h
  | cons c cs =>
    simp only [takeName] at h
    split at h
    · simp only [Option.some.injEq] at h
      rw [← h]
      simp
    · simp at h

theorem matchP1_ne_nil {line n} (h : matchP1 line = some n) : n ≠ [] := by
  unfold matchP1 at h
  split at h
  · simp at h
  · split at h
    · simp at h
    · split at h
      · split at h
        · simp at h
        · rename_i htn
          split at h
          · simp only [Option.some.injEq] at h
            exact h ▸ takeName_ne_nil htn
          · simp at h
      · simp at h

theorem vlcNameEq_ne_nil {line : Str} {nr : Str × Str} (h : vlcNameEq line = some nr) :
    nr.1 ≠ [] := by
  unfold vlcNameEq at h
  split at h
  · simp at h
  · split at h
    · simp at h
    · split at h
      · split at h
        · simp at h
        · rename_i htn
          split at h
          · simp only [Option.some.injEq] at h
            have h1 : nr.1 = _ := congrArg Prod.fst h.symm
            have h2 := takeName_ne_nil htn
            rw [h1]
            exact h2
          · simp at h
      · simp at h

theorem matchP2_ne_nil {line n} (h : matchP2 line = some n) : n ≠ [] := by
  unfold matchP2 at h
  split at h
  · simp at h
  · rename_i nr hv
    split at h
    · simp at h
    · split at h
      · simp only [Option.some.injEq] at h
        exact h ▸ vlcNameEq_ne_nil hv
      · simp at h

theorem matchP3_ne_nil {line n} (h : matchP3 line = some n) : n ≠ [] := by
  unfold matchP3 at h
  split at h
  · simp at h
  · rename_i nr hv
    split at h
    · split at h
      · simp only [Option.some.injEq] at h
        exact h ▸ vlcNameEq_ne_nil hv
      · simp at h
    · simp at h

theorem matchP4_ne_nil {line n} (h : matchP4 line = some n) : n ≠ [] := by
  unfold matchP4 at h
  split at h
  · simp at h
  · rename_i nr ht
    split at h
    · simp only [Option.some.injEq] at h
      exact h ▸ takeName_ne_nil ht
    · simp at h

theorem firstMatch_ne_nil {line n} (h : firstMatch line = some n) : n ≠ [] := by
  unfold firstMatch at h
  split at h
  · rename_i h1
    exact matchP1_ne_nil (h1.trans h)
  · split at h
    · rename_i h2
      exact matchP2_ne_nil (h2.trans h)
    · split at h
      · rename_i h3
        exact matchP3_ne_nil (h3.trans h)
      · exact matchP4_ne_nil h

theorem extractLoopF_names (lines : List Str) (path : Str) :
    ∀ f i r, r ∈ extractLoopF lines path f i → truthyName r.name = true := by
  intro f
  induction f with
  | zero => intro i r h; simp [extractLoopF] at h
  | succ f ih =>
    intro i r h
    simp only [extractLoopF] at h
    split at h
    · split at h
      · exact ih (i + 1) r h
      · split at h
        · exact ih (i + 2) r h
        · rename_i n hm _
          rcases List.mem_cons.mp h with hr | hr
          · subst hr
            simp [truthyName, List.isEmpty_iff, firstMatch_ne_nil hm]
          · exact ih _ r hr
    · simp at h

/-- Every pattern fails on a line whose first non-whitespace character is
missing (blank line) or is `/`. -/
theorem firstMatch_commentLine {line : Str} (h : commentLine line = true) :
    firstMatch line = none := by
  have hshape : line.dropWhile isSpace = [] ∨
      ∃ r, line.dropWhile isSpace = '/' :: r := by
    unfold commentLine at h
    split at h
    · exact Or.inl (by assumption)
    · rename_i c r heq
      exact Or.inr ⟨r, by rw [heq]; congr 1; exact (by simpa using h)⟩
  have hfun : expectLit "function".data (line.dropWhile isSpace) = none := by
    rcases hshape with h1 | ⟨r, h1⟩ <;> rw [h1] <;> simp [expectLit, String.data]
  have hvar : matchVLC (line.dropWhile isSpace) = none := by
    rcases hshape with h1 | ⟨r, h1⟩ <;> rw [h1] <;>
      simp [matchVLC, expectLit, String.data]
  have hnm : takeName (line.dropWhile isSpace) = none := by
    rcases hshape with h1 | ⟨r, h1⟩ <;> rw [h1]
    · simp [takeName]
    · simp [takeName, isNameChar, Char.isAlphanum, Char.isAlpha, Char.isDigit,
        Char.isUpper, Char.isLower]
  have h1 : matchP1 line = none := by unfold matchP1; rw [hfun]
  have h2 : matchP2 line = none := by
    unfold matchP2 vlcNameEq
    rw [hvar]
  have h3 : matchP3 line = none := by
    unfold matchP3 vlcNameEq
    rw [hvar]
  have h4 : matchP4 line = none := by unfold matchP4; rw [hnm]
  unfold firstMatch
  rw [h1, h2, h3, h4]

theorem extractLoopF_comment (lines : List Str) (path : Str)
    (hall : ∀ l ∈ lines, commentLine l = true) :
    ∀ f i, extractLoopF lines path f i = [] := by
  intro f
  induction f with
  | zero => intro i; rfl
  | succ f ih =>
    intro i
    simp only [extractLoopF]
    split
    · rename_i hlt
      have hmem : lines.getD i [] ∈ lines := by
        rw [List.getD_eq_getElem lines [] hlt]
        exact List.getElem_mem hlt
      rw [firstMatch_commentLine (hall _ hmem)]
      exact ih (i + 1)
    · rfl

theorem extractLoopF_snippet (lines : List Str) (path : Str) :
    ∀ f i r, r ∈ extractLoopF lines path f i →
      r.snippet = escapeNl (r.code.take 120) := by
  intro f
  induction f with
  | zero => intro i r h; simp [extractLoopF] at h
  | succ f ih =>
    intro i r h
    simp only [extractLoopF] at h
    split at h
    · split at h
      · exact ih (i + 1) r h
      · split at h
        · exact ih (i + 2) r h
        · rcases List.mem_cons.mp h with hr | hr
          · subst hr; rfl
          · exact ih _ r hr
    · simp at h

/-! ## Claims about the extractor -/

/-- C3: for every input text, the extractor emits records in source order:
every record satisfies `start_line ≤ end_line` (1-based inclusive), each
record starts strictly after the previously consumed line, and each
subsequent record starts strictly after the previous record's
`end_line`. -/
theorem c3_records_ordered (text path : Str) :
    RecordsChained 0 (extract_functions text path) :=
  extractLoopF_chained (splitLines text) path ((splitLines text).length + 1) 0

/-- C4: evaluation at the failing input.  The line `if (x) {` matches the
method-shorthand pattern with the denylisted name `if`; the code then
advances the scan by TWO lines (`i += 1` inside the pattern loop plus the
shared `i += 1` for unmatched lines), so the `function f() {` on the very
next line is never examined and nothing is extracted — although the same
function is extracted when the denylisted line does not precede it. -/
theorem c4_denylist_double_skip :
    extract_functions denyText "p".data = [] ∧
    (extract_functions denyTextTail "p".data).length = 1 := by
  constructor
  · decide
  · decide

/-- C7 (counterexample): a file consisting solely of a block comment and
whitespace can still produce a function record — the comment's interior
line `foo(a) { }` matches the method-shorthand pattern, because the
boundary patterns are applied without any comment awareness. -/
theorem c7_counterexample :
    extract_functions commentTrapText "p".data ≠ [] := by decide

/-- C7 (amended): for every file in which each line is whitespace-only or
has `/` as its first non-whitespace character — which covers line
comments, one-line block comments and block-comment delimiter lines, but
not arbitrary interior lines of multi-line block comments — the extractor
produces zero function records. -/
theorem c7_comment_only (text path : Str)
    (h : (splitLines text).all commentLine = true) :
    extract_functions text path = [] :=
  extractLoopF_comment (splitLines text) path (List.all_eq_true.mp h)
    ((splitLines text).length + 1) 0

/-- C7 (witness): the amended theorem applied to a concrete comment-only
file. -/
theorem c7_comment_only_witness :
    extract_functions commentOnlyText "q".data = [] :=
  c7_comment_only commentOnlyText "q".data (by decide)

/-- C8 (counterexample): a record whose 120-character code prefix contains
newlines gets a snippet longer than 120 characters, because the code
truncates to 120 characters BEFORE escaping each newline into the two
characters `\` and `n`. -/
theorem c8_counterexample :
    ¬ (∀ r ∈ extract_functions longFnText "p".data, r.snippet.length ≤ 120) := by
  decide

/-- C8 (amended): every extracted record's `snippet` is the newline-escape
of the first 120 characters of its `code` (hence up to 240 characters
long), and the report entry built by `make_entry` re-truncates it to at
most 120 characters. -/
theorem c8_snippet_shape (text path : Str) (r : FuncRec)
    (hr : r ∈ extract_functions text path) :
    r.snippet = escapeNl (r.code.take 120) ∧
    (make_entry r).snippet.length ≤ 120 := by
  refine ⟨extractLoopF_snippet (splitLines text) path _ 0 r hr, ?_⟩
  simp [make_entry, List.length_take]

/-- C8 (witness): the amended theorem applied to the first record of a
concrete file. -/
theorem c8_snippet_shape_witness :
    ((extract_functions smallFnText "p".data).headD default).snippet
      = escapeNl (((extract_functions smallFnText "p".data).headD default).code.take 120) ∧
    (make_entry ((extract_functions smallFnText "p".data).headD default)).snippet.length ≤ 120 :=
  c8_snippet_shape smallFnText "p".data _ (by decide)

/-- C10: every extracted record has a present, non-empty name (all four
boundary patterns capture a non-empty identifier), so the truthiness
filter `if f['name']` of the identical-name grouping excludes nothing. -/
theorem c10_names_always_truthy (text path : Str) :
    (extract_functions text path).all (fun r => truthyName r.name) = true ∧
    (extract_functions text path).filter (fun r => truthyName r.name)
      = extract_functions text path := by
  have hall : ∀ r ∈ extract_functions text path, truthyName r.name = true :=
    fun r hr => extractLoopF_names (splitLines text) path _ 0 r hr
  exact ⟨List.all_eq_true.mpr hall, List.filter_eq_self.mpr hall⟩

/-! ## Fuzzy clustering lemmas -/

theorem fuzzyCond_iff {score : Str → Str → ℚ} {th : ℚ} {rep o : FuncRec} :
    fuzzyCond score th rep o = true ↔
      rep.norm ≠ [] ∧ o.norm ≠ [] ∧
        th ≤ score rep.norm o.norm ∧ score rep.norm o.norm < 1 := by
  simp [fuzzyCond, List.isEmpty_iff, and_assoc]

theorem groupFuzzyF_members {score : Str → Str → ℚ} {th : ℚ} :
    ∀ fuel pool cl m, cl ∈ groupFuzzyF score th fuel pool → m ∈ cl → m.1 ∈ pool := by
  intro fuel
  induction fuel with
  | zero =>
    intro pool cl m hcl
    cases pool <;> simp [groupFuzzyF] at hcl
  | succ f ih =>
    intro pool cl m hcl hm
    cases pool with
    | nil => simp [groupFuzzyF] at hcl
    | cons rep rest =>
      simp only [groupFuzzyF] at hcl
      have hrem : ∀ x : FuzzyMember,
          x.1 ∈ rest.filter (fun o => !(fuzzyCond score th rep o)) → x.1 ∈ rep :: rest :=
        fun x hx => List.mem_cons_of_mem rep (List.mem_filter.mp hx).1
      split at hcl
      · rcases List.mem_cons.mp hcl with hcl | hcl
        · subst hcl
          rcases List.mem_cons.mp hm with hm | hm
          · rw [hm]; exact List.mem_cons_self rep rest
          · rcases List.mem_map.mp hm with ⟨o, ho, rfl⟩
            exact List.mem_cons_of_mem rep (List.mem_filter.mp ho).1
        · exact hrem m (ih _ cl m hcl hm)
      · exact hrem m (ih _ cl m hcl hm)

theorem groupFuzzyF_shape {score : Str → Str → ℚ} {th : ℚ} :
    ∀ fuel pool cl, cl ∈ groupFuzzyF score th fuel pool →
      ∃ rep others, cl = (rep, (none : Option ℚ)) :: others ∧
        ∀ x ∈ others, ∃ s, x.2 = some s ∧ th ≤ s ∧ s < 1 := by
  intro fuel
  induction fuel with
  | zero =>
    intro pool cl hcl
    cases pool <;> simp [groupFuzzyF] at hcl
  | succ f ih =>
    intro pool cl hcl
    cases pool with
    | nil => simp [groupFuzzyF] at hcl
    | cons rep rest =>
      simp only [groupFuzzyF] at hcl
      split at hcl
      · rcases List.mem_cons.mp hcl with hcl | hcl
        · refine ⟨rep, _, hcl, ?_⟩
          intro x hx
          rcases List.mem_map.mp hx with ⟨o, ho, rfl⟩
          have hc := (fuzzyCond_iff.mp (List.mem_filter.mp ho).2)
          exact ⟨score rep.norm o.norm, rfl, hc.2.2.1, hc.2.2.2⟩
        · exact ih _ cl hcl
      · exact ih _ cl hcl

/-! ## Claims about fuzzy clustering -/

/-- C1: whenever a record `rep` is taken as cluster representative with
pool `rest`, every pool record whose similarity to `rep` lies in
`[0.82, 1.0)` is absorbed into `rep`'s cluster (with its score recorded),
and that cluster is emitted by `group_fuzzy` on the pool `rep :: rest`;
conversely no pool record scoring below 0.82 is absorbed into the cluster
via `rep`.  The similarity backend `score` is abstract, constrained only
by `SequenceMatcher.ratio`'s behaviour on empty strings (an empty side
yields 0.0, two empty sides yield 1.0 — so a score in `[0.82, 1)` implies
both norms are non-empty and the code's truthiness guard passes). -/
theorem c1_fuzzy_absorption (score : Str → Str → ℚ)
    (hE : ∀ x y : Str, x = [] ∨ y = [] → score x y = 0 ∨ score x y = 1)
    (rep o : FuncRec) (rest : List FuncRec) (ho : o ∈ rest) :
    (mkRat 82 100 ≤ score rep.norm o.norm → score rep.norm o.norm < 1 →
      (o, some (score rep.norm o.norm)) ∈ fuzzyCluster score (mkRat 82 100) rep rest ∧
      fuzzyCluster score (mkRat 82 100) rep rest ∈
        group_fuzzy score (mkRat 82 100) (rep :: rest)) ∧
    (score rep.norm o.norm < mkRat 82 100 →
      ∀ q : ℚ, (o, some q) ∉ fuzzyCluster score (mkRat 82 100) rep rest) := by
  constructor
  · intro hle hlt
    have hrep : rep.norm ≠ [] := by
      intro hnil
      rcases hE rep.norm o.norm (Or.inl hnil) with h0 | h1
      · rw [h0] at hle; exact absurd hle (by decide)
      · rw [h1] at hlt; exact absurd hlt (by decide)
    have hon : o.norm ≠ [] := by
      intro hnil
      rcases hE rep.norm o.norm (Or.inr hnil) with h0 | h1
      · rw [h0] at hle; exact absurd hle (by decide)
      · rw [h1] at hlt; exact absurd hlt (by decide)
    have hcond : fuzzyCond score (mkRat 82 100) rep o = true :=
      fuzzyCond_iff.mpr ⟨hrep, hon, hle, hlt⟩
    have hmem : (o, some (score rep.norm o.norm)) ∈
        fuzzyCluster score (mkRat 82 100) rep rest := by
      unfold fuzzyCluster
      exact List.mem_cons_of_mem _
        (List.mem_map.mpr ⟨o, List.mem_filter.mpr ⟨ho, hcond⟩, rfl⟩)
    refine ⟨hmem, ?_⟩
    have hlen : 1 < (fuzzyCluster score (mkRat 82 100) rep rest).length := by
      unfold fuzzyCluster
      have : (o, some (score rep.norm o.norm)) ∈
          (rest.filter (fuzzyCond score (mkRat 82 100) rep)).map
            (fun o => (o, some (score rep.norm o.norm))) :=
        List.mem_map.mpr ⟨o, List.mem_filter.mpr ⟨ho, hcond⟩, rfl⟩
      have hpos := List.length_pos.mpr (List.ne_nil_of_mem this)
      simp only [List.length_cons]
      omega
    unfold group_fuzzy
    simp only [List.length_cons, groupFuzzyF, hlen, if_true]
    exact List.mem_cons_self _ _
  · intro hlt q hmem
    unfold fuzzyCluster at hmem
    rcases List.mem_cons.mp hmem with h | h
    · simp at h
    · rcases List.mem_map.mp h with ⟨o2, ho2, heq⟩
      have hc := fuzzyCond_iff.mp (List.mem_filter.mp ho2).2
      have ho2o : o2 = o := congrArg Prod.fst heq
      rw [ho2o] at hc
      exact absurd hc.2.2.1 (not_le.mpr hlt)

/-- C1 (witness): the theorem applied to concrete records and a concrete
backend satisfying the empty-string hypothesis. -/
theorem c1_fuzzy_absorption_witness :
    (recB, some (scoreW recA.norm recB.norm)) ∈
      fuzzyCluster scoreW (mkRat 82 100) recA [recB] ∧
    fuzzyCluster scoreW (mkRat 82 100) recA [recB] ∈
      group_fuzzy scoreW (mkRat 82 100) (recA :: [recB]) :=
  (c1_fuzzy_absorption scoreW
      (by
        intro x y h
        rcases h with h | h <;>
          simp [scoreW, h])
      recA recB [recB] (by decide)).1 (by decide) (by decide)

/-- C5 helper: every member of any exact-body group carries that group's
shared norm, which appears in `exactNorms`. -/
theorem mem_exactNorms {funcs : List FuncRec} {g : List FuncRec} {f : FuncRec}
    (hg : g ∈ group_exact funcs) (hf : f ∈ g) : f.norm ∈ exactNorms funcs := by
  rcases List.mem_filterMap.mp hg with ⟨k, -, hk⟩
  split at hk
  · rename_i hcond
    simp only [Option.some.injEq] at hk
    subst hk
    have hfk : f.norm = k := by
      have := List.mem_filter.mp hf
      simpa using this.2
    rcases hg2 : funcs.filter (fun f => decide (f.norm = k)) with _ | ⟨f0, t⟩
    · rw [hg2] at hf; simp at hf
    · have hf0 : f0.norm = k := by
        have : f0 ∈ funcs.filter (fun f => decide (f.norm = k)) := by
          rw [hg2]; exact List.mem_cons_self f0 t
        simpa using (List.mem_filter.mp this).2
      unfold exactNorms
      refine List.mem_filterMap.mpr ⟨f0 :: t, ?_, ?_⟩
      · rw [← hg2]; exact hg
      · show (if f0.norm = [] then none else some f0.norm) = some f.norm
        rw [if_neg (by rw [hf0]; exact hcond.2), hf0, hfk]
  · simp at hk

/-- C5: mutual exclusion of the exact-body and fuzzy outputs.  For every
member `f` of an exact-body group: `f` is excluded from the pool that
fuzzy clustering runs on, and no member of any fuzzy cluster of `main`'s
report equals `f` (their norms are outside `exactNorms` while `f.norm` is
inside). -/
theorem c5_exact_fuzzy_disjoint (score : Str → Str → ℚ) (funcs : List FuncRec)
    (g : List FuncRec) (f : FuncRec) (cl : List FuzzyMember) (m : FuzzyMember)
    (hg : g ∈ group_exact funcs) (hf : f ∈ g)
    (hcl : cl ∈ mainFuzzyGroups score funcs) (hm : m ∈ cl) :
    m.1 ≠ f ∧ f ∉ remainingOf funcs := by
  have hfn : f.norm ∈ exactNorms funcs := mem_exactNorms hg hf
  have hnotin : f ∉ remainingOf funcs := by
    intro hmem
    have := (List.mem_filter.mp hmem).2
    simp only [decide_eq_true_eq] at this
    exact this hfn
  refine ⟨?_, hnotin⟩
  intro heq
  have hm1 : m.1 ∈ remainingOf funcs :=
    groupFuzzyF_members _ (remainingOf funcs) cl m hcl hm
  rw [heq] at hm1
  exact hnotin hm1

/-- C5 (witness): the theorem applied to a concrete record set with one
exact-body pair (norm `"x x"`) and one fuzzy pair. -/
theorem c5_exact_fuzzy_disjoint_witness :
    ((recB, some (mkRat 9 10)) : FuzzyMember).1 ≠ recDupA ∧
    recDupA ∉ remainingOf sampleFuncs :=
  c5_exact_fuzzy_disjoint scoreW sampleFuncs [recDupA, recDupB] recDupA
    [(recA, none), (recB, some (mkRat 9 10))] (recB, some (mkRat 9 10))
    (by decide) (by decide) (by decide) (by decide)

/-! ## Rounding lemmas and the reported-similarity claim -/

theorem rhe_ge_floor (q : ℚ) : ⌊q⌋ ≤ rhe q := by
  unfold rhe
  split
  · exact le_refl _
  · split
    · omega
    · split <;> omega

theorem rhe_le_floor_add_one (q : ℚ) : rhe q ≤ ⌊q⌋ + 1 := by
  unfold rhe
  split
  · omega
  · split
    · omega
    · split <;> omega

theorem round3_bounds {s : ℚ} (h1 : mkRat 82 100 ≤ s) (h2 : s < 1) :
    mkRat 82 100 ≤ round3 s ∧ round3 s ≤ 1 := by
  have h82 : (mkRat 82 100 : ℚ) = 82 / 100 := by
    rw [Rat.mkRat_eq_divInt, Rat.divInt_eq_div]
    norm_num
  rw [h82] at h1
  have hscale : scaleQ s = s * 1000 := by
    unfold scaleQ
    rw [Rat.mkRat_eq_divInt, Rat.divInt_eq_div]
    push_cast
    conv_rhs => rw [← Rat.num_div_den s]
    ring
  have hfl : (820 : ℤ) ≤ ⌊scaleQ s⌋ := by
    rw [hscale, Int.le_floor]
    push_cast
    linarith
  have hfu : ⌊scaleQ s⌋ < 1000 := by
    rw [hscale, Int.floor_lt]
    push_cast
    linarith
  have hlo := rhe_ge_floor (scaleQ s)
  have hhi := rhe_le_floor_add_one (scaleQ s)
  have hr3 : round3 s = ((rhe (scaleQ s) : ℤ) : ℚ) / 1000 := by
    unfold round3
    rw [Rat.mkRat_eq_divInt, Rat.divInt_eq_div]
    norm_num
  rw [h82, hr3]
  constructor
  · rw [div_le_div_iff₀ (by norm_num) (by norm_num)]
    have : (820 : ℚ) ≤ ((rhe (scaleQ s) : ℤ) : ℚ) := by
      exact_mod_cast le_trans hfl hlo
    linarith
  · rw [div_le_one (by norm_num)]
    have : ((rhe (scaleQ s) : ℤ) : ℚ) ≤ 1000 := by
      have h1000 : rhe (scaleQ s) ≤ 1000 := by omega
      exact_mod_cast h1000
    linarith

/-- C9 (counterexample): a fuzzy cluster of the output document can report
a similarity equal to 1: with a raw similarity of 0.9999 (attainable by
`SequenceMatcher.ratio`, e.g. 19998/20000 for two 10000-character strings
differing in one character), `round(sim, 3)` rounds up to 1.0. -/
theorem c9_counterexample :
    ¬ (∀ g ∈ fuzzy_duplicates_out scoreCE [recA, recB],
        ∀ m ∈ g.fmatches, m.2 < 1) := by
  decide

/-- C9 (amended): each non-representative member of a fuzzy cluster of the
output document carries a reported similarity `round(sim, 3)` lying in
`[0.82, 1]` — the raw similarity lies in `[0.82, 1)`, but rounding to
three decimals can reach exactly 1 when the raw value is ≥ 0.9995. -/
theorem c9_similarity_bounds (score : Str → Str → ℚ) (funcs : List FuncRec)
    (g : FuzzyGroupOut) (m : Entry × ℚ)
    (hg : g ∈ fuzzy_duplicates_out score funcs) (hm : m ∈ g.fmatches) :
    mkRat 82 100 ≤ m.2 ∧ m.2 ≤ 1 := by
  unfold fuzzy_duplicates_out at hg
  rcases List.mem_map.mp hg with ⟨cl, hcl, hgeq⟩
  rcases groupFuzzyF_shape _ _ cl hcl with ⟨rep, others, hshape, hothers⟩
  subst hshape
  subst hgeq
  simp only at hm
  rcases List.mem_map.mp hm with ⟨o, ho, rfl⟩
  rcases hothers o ho with ⟨s, hs, hsl, hsu⟩
  simp only [hs, Option.getD_some]
  exact round3_bounds hsl hsu

/-- C9 (witness): the amended theorem applied to the concrete pipeline
that produces one fuzzy cluster with one match. -/
theorem c9_similarity_bounds_witness :
    mkRat 82 100 ≤ (((fuzzy_duplicates_out scoreCE [recA, recB]).headD
        default).fmatches.headD default).2 ∧
    (((fuzzy_duplicates_out scoreCE [recA, recB]).headD
        default).fmatches.headD default).2 ≤ 1 :=
  c9_similarity_bounds scoreCE [recA, recB]
    ((fuzzy_duplicates_out scoreCE [recA, recB]).headD default)
    (((fuzzy_duplicates_out scoreCE [recA, recB]).headD default).fmatches.headD default)
    (by decide) (by decide)

/-! ## Canonical-selection lemmas -/

theorem lexLe_refl (a : Str) : lexLe a a = true := by
  induction a with
  | nil => rfl
  | cons c cs ih => simp [lexLe, ih]

theorem lexLe_total (a b : Str) : lexLe a b = true ∨ lexLe b a = true := by
  induction a generalizing b with
  | nil => exact Or.inl rfl
  | cons c cs ih =>
    cases b with
    | nil => exact Or.inr rfl
    | cons d ds =>
      simp only [lexLe]
      rcases Nat.lt_trichotomy c.toNat d.toNat with h | h | h
      · left; rw [if_pos h]
      · rcases ih ds with hcd | hdc
        · left
          rw [if_neg (by omega), if_neg (by omega)]
          exact hcd
        · right
          rw [if_neg (by omega), if_neg (by omega)]
          exact hdc
      · right; rw [if_pos h]

theorem lexLe_trans {a b c : Str} (hab : lexLe a b = true) (hbc : lexLe b c = true) :
    lexLe a c = true := by
  induction a generalizing b c with
  | nil => rfl
  | cons x xs ih =>
    cases b with
    | nil => simp [lexLe] at hab
    | cons y ys =>
      cases c with
      | nil => simp [lexLe] at hbc
      | cons z zs =>
        simp only [lexLe] at hab hbc ⊢
        by_cases h1 : x.toNat < y.toNat
        · by_cases h2 : y.toNat < z.toNat
          · rw [if_pos (by omega)]
          · rw [if_neg h2] at hbc
            by_cases h3 : z.toNat < y.toNat
            · rw [if_pos h3] at hbc; simp at hbc
            · rw [if_pos (by omega : x.toNat < z.toNat)]
        · rw [if_neg h1] at hab
          by_cases h4 : y.toNat < x.toNat
          · rw [if_pos h4] at hab; simp at hab
          · rw [if_neg h4] at hab
            by_cases h2 : y.toNat < z.toNat
            · rw [if_pos (by omega : x.toNat < z.toNat)]
            · rw [if_neg h2] at hbc
              by_cases h3 : z.toNat < y.toNat
              · rw [if_pos h3] at hbc; simp at hbc
              · rw [if_neg h3] at hbc
                rw [if_neg (by omega : ¬ x.toNat < z.toNat),
                    if_neg (by omega : ¬ z.toNat < x.toNat)]
                exact ih hab hbc

theorem keyLE_refl (a : FuncRec) : keyLE a a = true := by
  simp [keyLE, lexLe_refl]

theorem keyLE_total (a b : FuncRec) : keyLE a b = true ∨ keyLE b a = true := by
  unfold keyLE
  by_cases h : a.path.length = b.path.length
  · rw [if_pos h, if_pos h.symm]
    exact lexLe_total a.path b.path
  · rcases Nat.lt_or_ge a.path.length b.path.length with hlt | hge
    · left
      rw [if_neg h]
      simpa using hlt
    · right
      rw [if_neg (fun he => h he.symm)]
      simp only [decide_eq_true_eq]
      omega

theorem keyLE_trans {a b c : FuncRec} (hab : keyLE a b = true) (hbc : keyLE b c = true) :
    keyLE a c = true := by
  unfold keyLE at hab hbc ⊢
  by_cases h1 : a.path.length = b.path.length
  · rw [if_pos h1] at hab
    by_cases h2 : b.path.length = c.path.length
    · rw [if_pos h2] at hbc
      rw [if_pos (h1.trans h2)]
      exact lexLe_trans hab hbc
    · rw [if_neg h2] at hbc
      simp only [decide_eq_true_eq] at hbc
      rw [if_neg (by omega)]
      simp only [decide_eq_true_eq]
      omega
  · rw [if_neg h1] at hab
    simp only [decide_eq_true_eq] at hab
    by_cases h2 : b.path.length = c.path.length
    · rw [if_neg (by omega)]
      simp only [decide_eq_true_eq]
      omega
    · rw [if_neg h2] at hbc
      simp only [decide_eq_true_eq] at hbc
      rw [if_neg (by omega)]
      simp only [decide_eq_true_eq]
      omega

theorem mem_orderedInsert (a x : FuncRec) :
    ∀ l, x ∈ orderedInsert a l ↔ x = a ∨ x ∈ l := by
  intro l
  induction l with
  | nil => simp [orderedInsert]
  | cons b l ih =>
    simp only [orderedInsert]
    split
    · simp only [List.mem_cons]
    · simp only [List.mem_cons, ih]
      tauto

theorem length_orderedInsert (a : FuncRec) :
    ∀ l, (orderedInsert a l).length = l.length + 1 := by
  intro l
  induction l with
  | nil => rfl
  | cons b l ih =>
    simp only [orderedInsert]
    split
    · simp
    · simp [ih]

theorem sortedK_tail {a : FuncRec} {l : List FuncRec} (h : SortedK (a :: l)) :
    SortedK l := by
  cases l with
  | nil => trivial
  | cons b l => exact h.2

theorem sortedK_head_le :
    ∀ (l : List FuncRec) (b : FuncRec), SortedK (b :: l) →
      ∀ x ∈ l, keyLE b x = true := by
  intro l
  induction l with
  | nil => intro b _ x hx; simp at hx
  | cons c l ih =>
    intro b hs x hx
    obtain ⟨hbc, hs2⟩ := hs
    rcases List.mem_cons.mp hx with rfl | hx
    · exact hbc
    · exact keyLE_trans hbc (ih c hs2 x hx)

theorem orderedInsert_sortedK (a : FuncRec) :
    ∀ l, SortedK l → SortedK (orderedInsert a l) := by
  intro l
  induction l with
  | nil => intro _; trivial
  | cons b l ih =>
    intro hs
    simp only [orderedInsert]
    split
    · rename_i hab
      exact ⟨hab, hs⟩
    · rename_i hab
      have hba : keyLE b a = true := by
        rcases keyLE_total a b with h | h
        · exact absurd h hab
        · exact h
      have hins := ih (sortedK_tail hs)
      cases hl : orderedInsert a l with
      | nil => trivial
      | cons x xs =>
        refine ⟨?_, hl ▸ hins⟩
        have hx : x = a ∨ x ∈ l := by
          have hmem : x ∈ orderedInsert a l := by
            rw [hl]; exact List.mem_cons_self x xs
          exact (mem_orderedInsert a x l).mp hmem
        rcases hx with rfl | hx
        · exact hba
        · exact sortedK_head_le l b hs x hx

theorem sortByKey_sortedK (l : List FuncRec) : SortedK (sortByKey l) := by
  induction l with
  | nil => trivial
  | cons a l ih => exact orderedInsert_sortedK a (sortByKey l) ih

theorem mem_sortByKey {x : FuncRec} :
    ∀ l : List FuncRec, x ∈ sortByKey l ↔ x ∈ l := by
  intro l
  induction l with
  | nil => simp [sortByKey]
  | cons a l ih =>
    show x ∈ orderedInsert a (sortByKey l) ↔ _
    rw [mem_orderedInsert a x (sortByKey l), ih]
    simp [List.mem_cons, eq_comm]

theorem length_sortByKey (l : List FuncRec) : (sortByKey l).length = l.length := by
  induction l with
  | nil => rfl
  | cons a l ih =>
    show (orderedInsert a (sortByKey l)).length = _
    rw [length_orderedInsert, ih]
    rfl

/-- C6: for every group of at least two records, `choose_canonical`
returns the path of a member whose path length is minimal in the group,
with equal lengths broken by ascending lexicographic (code-point) order;
as a pure function of the group list it is trivially deterministic. -/
theorem c6_choose_canonical_min (group : List FuncRec) (h2 : 2 ≤ group.length) :
    ∃ m ∈ group, choose_canonical group = m.path ∧
      ∀ x ∈ group, m.path.length ≤ x.path.length ∧
        (m.path.length = x.path.length → lexLe m.path x.path = true) := by
  cases hs : sortByKey group with
  | nil =>
    exfalso
    have := length_sortByKey group
    rw [hs] at this
    simp at this
    omega
  | cons m t =>
    refine ⟨m, ?_, ?_, ?_⟩
    · exact (mem_sortByKey group).mp (hs ▸ List.mem_cons_self m t)
    · unfold choose_canonical
      rw [hs]
    · intro x hx
      have hxs : x ∈ m :: t := hs ▸ (mem_sortByKey group).mpr hx
      have hle : keyLE m x = true := by
        rcases List.mem_cons.mp hxs with rfl | hx2
        · exact keyLE_refl _
        · exact sortedK_head_le t m (hs ▸ sortByKey_sortedK group) x hx2
      unfold keyLE at hle
      split at hle
      · rename_i heq
        exact ⟨le_of_eq heq, fun _ => hle⟩
      · rename_i hne
        simp only [decide_eq_true_eq] at hle
        exact ⟨le_of_lt hle, fun hcon => absurd hcon hne⟩

/-- C6 (witness): the theorem applied to the concrete four-record group
(whose shortest path is `a.js`). -/
theorem c6_choose_canonical_min_witness :
    ∃ m ∈ sampleFuncs, choose_canonical sampleFuncs = m.path ∧
      ∀ x ∈ sampleFuncs, m.path.length ≤ x.path.length ∧
        (m.path.length = x.path.length → lexLe m.path x.path = true) :=
  c6_choose_canonical_min sampleFuncs (by decide)

/-! ## Normalizer lemmas -/

theorem removeBlockF_no_slash :
    ∀ (f : Nat) (s : Str), (∀ c ∈ s, ¬ c = '/') → removeBlockF f s = s := by
  intro f
  induction f with
  | zero => intro s _; rfl
  | succ f ih =>
    intro s h
    cases s with
    | nil => rfl
    | cons c r =>
      simp only [removeBlockF]
      rw [if_neg (fun hc => h c (List.mem_cons_self c r) hc.1),
        ih r (fun d hd => h d (List.mem_cons_of_mem c hd))]

theorem removeLineAux_no_slash :
    ∀ s : Str, (∀ c ∈ s, ¬ c = '/') → removeLineAux false s = s := by
  intro s
  induction s with
  | nil => intro _; rfl
  | cons c r ih =>
    intro h
    cases r with
    | nil => rfl
    | cons d r2 =>
      simp only [removeLineAux]
      rw [if_neg (fun hc => h c (List.mem_cons_self c (d :: r2)) hc.1),
        ih (fun e he => h e (List.mem_cons_of_mem c he))]

theorem strip_comments_no_slash {s : Str} (h : ∀ c ∈ s, ¬ c = '/') :
    strip_comments s = s := by
  unfold strip_comments
  rw [removeBlockF_no_slash s.length s h, removeLineAux_no_slash s h]

theorem collapseAux_true_all_space {s : Str} (h : ∀ c ∈ s, isSpace c = true) :
    collapseAux true s = [] := by
  induction s with
  | nil => rfl
  | cons c r ih =>
    simp only [collapseAux]
    rw [if_pos (h c (List.mem_cons_self c r))]
    exact ih (fun d hd => h d (List.mem_cons_of_mem c hd))

theorem onlyPlain_tail {c : Char} {r : Str} (h : onlyPlain (c :: r) = true) :
    onlyPlain r = true := by
  simp only [onlyPlain, List.all_cons, Bool.and_eq_true] at h ⊢
  exact h.2

theorem onlyPlain_head {c : Char} {r : Str} (h : onlyPlain (c :: r) = true)
    (hsp : isSpace c = true) : c = ' ' := by
  simp only [onlyPlain, List.all_cons, Bool.and_eq_true, Bool.or_eq_true,
    Bool.not_eq_true', decide_eq_true_eq] at h
  rcases h.1 with h1 | h1
  · rw [hsp] at h1; cases h1
  · exact h1

theorem noDD_tail {a : Char} {w : Str} (h : noDD (a :: w) = true) : noDD w = true := by
  cases w with
  | nil => rfl
  | cons b r =>
    simp only [noDD, Bool.and_eq_true] at h
    exact h.2

theorem noDD_head2 {a b : Char} {r : Str} (h : noDD (a :: b :: r) = true) :
    ¬ (a = ' ' ∧ b = ' ') := by
  simp only [noDD, Bool.and_eq_true, Bool.not_eq_true', Bool.and_eq_false_iff,
    decide_eq_false_iff_not, decide_eq_true_eq] at h
  intro ⟨h1, h2⟩
  rcases h.1 with h3 | h3
  · exact h3 h1
  · exact h3 h2

theorem noDD_cons {a : Char} {w : Str} (hw : noDD w = true)
    (hh : ∀ b r, w = b :: r → ¬ (a = ' ' ∧ b = ' ')) : noDD (a :: w) = true := by
  cases w with
  | nil => rfl
  | cons b r =>
    simp only [noDD, Bool.and_eq_true]
    refine ⟨?_, hw⟩
    have := hh b r rfl
    simp only [Bool.not_eq_true', Bool.and_eq_false_iff, decide_eq_false_iff_not]
    by_cases ha : a = ' '
    · exact Or.inr (fun hb => this ⟨ha, hb⟩)
    · exact Or.inl ha

theorem space_ne_slash {c : Char} (h : isSpace c = true) : ¬ c = '/' := by
  intro hc
  rw [hc] at h
  exact absurd h (by decide)

theorem headNotSpace_of_space_free {s : Str} {c : Char}
    (hop : onlyPlain s = true) (hdd : noDD (c :: s) = true) (hceq : c = ' ') :
    headNotSpace s = true := by
  cases s with
  | nil => rfl
  | cons d r =>
    have hne := noDD_head2 hdd
    simp only [headNotSpace, Bool.not_eq_true']
    by_cases hd : isSpace d = true
    · have hdeq : d = ' ' := onlyPlain_head hop hd
      exact absurd ⟨hceq, hdeq⟩ hne
    · simpa using hd

theorem collapseAux_onlyPlain : ∀ (b : Bool) (s : Str),
    onlyPlain (collapseAux b s) = true := by
  intro b s
  induction s generalizing b with
  | nil => rfl
  | cons c r ih =>
    simp only [collapseAux]
    by_cases hc : isSpace c = true
    · rw [if_pos hc]
      cases b with
      | true => exact ih true
      | false =>
        show onlyPlain (' ' :: collapseAux true r) = true
        simp only [onlyPlain, List.all_cons, Bool.and_eq_true]
        exact ⟨by decide, by simpa [onlyPlain] using ih true⟩
    · rw [if_neg hc]
      simp only [onlyPlain, List.all_cons, Bool.and_eq_true]
      have hcf : isSpace c = false := by simpa using hc
      exact ⟨by simp [hcf], by simpa [onlyPlain] using ih false⟩

theorem collapseAux_true_headNotSpace :
    ∀ s : Str, headNotSpace (collapseAux true s) = true := by
  intro s
  induction s with
  | nil => rfl
  | cons c r ih =>
    simp only [collapseAux]
    by_cases hc : isSpace c = true
    · rw [if_pos hc]; exact ih
    · rw [if_neg hc]
      simp only [headNotSpace, Bool.not_eq_true']
      simpa using hc

theorem collapseAux_noDD : ∀ s : Str,
    noDD (collapseAux false s) = true ∧ noDD (collapseAux true s) = true := by
  intro s
  induction s with
  | nil => exact ⟨rfl, rfl⟩
  | cons c r ih =>
    constructor
    · simp only [collapseAux]
      by_cases hc : isSpace c = true
      · rw [if_pos hc]
        refine noDD_cons ih.2 ?_
        intro b w hw hab
        have := collapseAux_true_headNotSpace r
        rw [hw] at this
        simp only [headNotSpace, Bool.not_eq_true'] at this
        rw [hab.2] at this
        exact absurd this (by decide)
      · rw [if_neg hc]
        refine noDD_cons ih.1 ?_
        intro b w _ hab
        rw [hab.1] at hc
        exact hc (by decide)
    · simp only [collapseAux]
      by_cases hc : isSpace c = true
      · rw [if_pos hc]; exact ih.2
      · rw [if_neg hc]
        refine noDD_cons ih.1 ?_
        intro b w _ hab
        rw [hab.1] at hc
        exact hc (by decide)

theorem dropWhile_headNotSpace (s : Str) :
    headNotSpace (s.dropWhile isSpace) = true := by
  induction s with
  | nil => rfl
  | cons c r ih =>
    simp only [List.dropWhile]
    by_cases hc : isSpace c = true
    · rw [hc]; exact ih
    · rw [Bool.of_not_eq_true hc]
      simp only [headNotSpace, Bool.not_eq_true']
      simpa using hc

theorem dropWhile_onlyPlain {s : Str} (h : onlyPlain s = true) :
    onlyPlain (s.dropWhile isSpace) = true := by
  induction s with
  | nil => exact h
  | cons c r ih =>
    simp only [List.dropWhile]
    by_cases hc : isSpace c = true
    · rw [hc]; exact ih (onlyPlain_tail h)
    · rw [Bool.of_not_eq_true hc]; exact h

theorem dropWhile_noDD {s : Str} (h : noDD s = true) :
    noDD (s.dropWhile isSpace) = true := by
  induction s with
  | nil => exact h
  | cons c r ih =>
    simp only [List.dropWhile]
    by_cases hc : isSpace c = true
    · rw [hc]; exact ih (noDD_tail h)
    · rw [Bool.of_not_eq_true hc]; exact h

theorem dropTrailing_cons (c : Char) (r : Str) :
    dropTrailing (c :: r) =
      if (dropTrailing r).isEmpty && isSpace c then [] else c :: dropTrailing r := rfl

theorem dropTrailing_onlyPlain {s : Str} (h : onlyPlain s = true) :
    onlyPlain (dropTrailing s) = true := by
  induction s with
  | nil => exact h
  | cons c r ih =>
    rw [dropTrailing_cons]
    split
    · rfl
    · simp only [onlyPlain, List.all_cons, Bool.and_eq_true] at h ⊢
      exact ⟨h.1, by simpa [onlyPlain] using ih (by simpa [onlyPlain] using h.2)⟩

theorem dropTrailing_noDD {s : Str} (h : noDD s = true) :
    noDD (dropTrailing s) = true := by
  induction s with
  | nil => exact h
  | cons c r ih =>
    rw [dropTrailing_cons]
    split
    · rfl
    · refine noDD_cons (ih (noDD_tail h)) ?_
      intro b w hw hab
      cases r with
      | nil => simp [dropTrailing] at hw
      | cons d r2 =>
        have hbd : b = d := by
          rw [dropTrailing_cons] at hw
          split at hw
          · cases hw
          · injection hw with h1 _
            exact h1.symm
        exact absurd ⟨hab.1, hbd ▸ hab.2⟩ (noDD_head2 h)

theorem dropTrailing_headNotSpace {s : Str} (h : headNotSpace s = true) :
    headNotSpace (dropTrailing s) = true := by
  cases s with
  | nil => exact h
  | cons c r =>
    rw [dropTrailing_cons]
    split
    · rfl
    · exact h

theorem dropTrailing_lastNotSpace : ∀ s : Str, lastNotSpace (dropTrailing s) = true := by
  intro s
  induction s with
  | nil => rfl
  | cons c r ih =>
    rw [dropTrailing_cons]
    split
    · rfl
    · rename_i hcond
      cases hw : dropTrailing r with
      | nil =>
        rw [hw] at hcond
        simp only [List.isEmpty_nil, Bool.true_and, Bool.not_eq_true] at hcond
        simp only [lastNotSpace, Bool.not_eq_true']
        simpa using hcond
      | cons d ws =>
        show lastNotSpace (c :: d :: ws) = true
        simp only [lastNotSpace]
        rw [← hw]
        exact ih

theorem collapse_id : ∀ s : Str, onlyPlain s = true → noDD s = true →
    (collapseAux false s = s ∧
      (headNotSpace s = true → collapseAux true s = s)) := by
  intro s
  induction s with
  | nil => exact fun _ _ => ⟨rfl, fun _ => rfl⟩
  | cons c r ih =>
    intro hop hdd
    have ihr := ih (onlyPlain_tail hop) (noDD_tail hdd)
    constructor
    · simp only [collapseAux]
      by_cases hc : isSpace c = true
      · rw [if_pos hc]
        have hceq : c = ' ' := onlyPlain_head hop hc
        have hhr : headNotSpace r = true :=
          headNotSpace_of_space_free (onlyPlain_tail hop) hdd hceq
        rw [ihr.2 hhr, hceq]
        rfl
      · rw [if_neg hc, ihr.1]
    · intro hh
      simp only [headNotSpace, Bool.not_eq_true'] at hh
      simp only [collapseAux]
      rw [if_neg (by simp [hh]), ihr.1]

theorem pyStrip_id {s : Str} (hh : headNotSpace s = true)
    (hl : lastNotSpace s = true) : pyStrip s = s := by
  have hdw : s.dropWhile isSpace = s := by
    cases s with
    | nil => rfl
    | cons c r =>
      simp only [headNotSpace, Bool.not_eq_true'] at hh
      simp [List.dropWhile, hh]
  unfold pyStrip
  rw [hdw]
  clear hdw hh
  induction s with
  | nil => rfl
  | cons c r ih =>
    cases r with
    | nil =>
      simp only [lastNotSpace, Bool.not_eq_true'] at hl
      rw [dropTrailing_cons]
      simp [dropTrailing, hl]
    | cons d r2 =>
      have htail : dropTrailing (d :: r2) = d :: r2 := ih (by exact hl)
      rw [dropTrailing_cons, htail]
      simp

theorem normalize_wellFormed (s : Str) :
    onlyPlain (normalize s) = true ∧ noDD (normalize s) = true ∧
    headNotSpace (normalize s) = true ∧ lastNotSpace (normalize s) = true := by
  unfold normalize pyStrip collapse
  set y := strip_comments s with hy
  refine ⟨?_, ?_, ?_, ?_⟩
  · exact dropTrailing_onlyPlain (dropWhile_onlyPlain (collapseAux_onlyPlain false y))
  · exact dropTrailing_noDD (dropWhile_noDD (collapseAux_noDD y).1)
  · exact dropTrailing_headNotSpace (dropWhile_headNotSpace _)
  · exact dropTrailing_lastNotSpace _

/-! ## Claims about the normalizer -/

/-- C2 (counterexample): `normalize` is NOT idempotent.  On
`"//*a*/*b*/"` the block-comment pass removes the inner `/*a*/` and
splices the surrounding text into a brand-new block comment `/*b*/`,
which a second normalization pass then removes: `normalize` gives
`"/*b*/"` once and `""` twice. -/
theorem c2_idempotence_counterexample :
    normalize (normalize "//*a*/*b*/".data) ≠ normalize "//*a*/*b*/".data := by
  decide

/-- C2 (amended): `normalize` is a pure function (identical input gives
identical output) and maps whitespace-only input to the empty string; it
is idempotent on every string whose normalized form is free of comment
markers (comment stripping fixes it) — but not in general, because
block-comment removal can splice new comment delimiters together. -/
theorem c2_normalize_props :
    (∀ s t : Str, s = t → normalize s = normalize t) ∧
    (∀ s : Str, (∀ c ∈ s, isSpace c = true) → normalize s = []) ∧
    (∀ s : Str, strip_comments (normalize s) = normalize s →
      normalize (normalize s) = normalize s) := by
  refine ⟨fun s t h => by rw [h], ?_, ?_⟩
  · intro s hsp
    have hsc : strip_comments s = s :=
      strip_comments_no_slash (fun c hc => space_ne_slash (hsp c hc))
    unfold normalize
    rw [hsc]
    cases s with
    | nil => rfl
    | cons c r =>
      unfold collapse
      simp only [collapseAux]
      rw [if_pos (hsp c (List.mem_cons_self c r)),
        collapseAux_true_all_space (fun d hd => hsp d (List.mem_cons_of_mem c hd))]
      rfl
  · intro s hfix
    obtain ⟨hop, hdd, hh, hl⟩ := normalize_wellFormed s
    conv_lhs => rw [show normalize (normalize s)
      = pyStrip (collapse (strip_comments (normalize s))) from rfl, hfix]
    unfold collapse
    rw [(collapse_id (normalize s) hop hdd).1]
    exact pyStrip_id hh hl

/-- C2 (witness): purity, the whitespace-only case and the restricted
idempotence applied at concrete inputs (`"x = 1"` normalizes to itself
and contains no comment markers). -/
theorem c2_normalize_props_witness :
    normalize "x = 1".data = normalize "x = 1".data ∧
    normalize " \t ".data = [] ∧
    normalize (normalize "x = 1".data) = normalize "x = 1".data :=
  ⟨c2_normalize_props.1 "x = 1".data "x = 1".data rfl,
   c2_normalize_props.2.1 " \t ".data (by decide),
   c2_normalize_props.2.2 "x = 1".data (by decide)⟩

end FindDup
